import Mathlib

/-!
Verification of the PaperSynth-AI aggregation, report-assembly and
normalization logic, as a shallow embedding of the Python source.

Modelling conventions:
* Python numbers are modelled as exact rationals (`ℚ`); `float` formatting
  with `:.1f` is modelled as rounding the exact rational half-to-even (the
  rounding CPython applies to the decimal expansion of the double).
* Python dicts built by the normalizers are modelled as ordered association
  lists so that a key that is *absent* is distinguishable from a key bound
  to `None` (`PVal.vnull`).
* The two external services (arXiv search, Gemini text analysis) are black
  boxes per the spec; a per-paper service call is modelled by a
  `ServiceOutcome` (exception or returned text) and `json.loads` of the
  response by a `parse` function parameter.
* `Counter` key order is first-encounter order; `Counter.most_common` is a
  stable sort by descending count (CPython's `sorted`/`heapq.nlargest` are
  stable); Python's `max(..., key=...)` returns the first maximal element.
-/

/-! ### Abstract cleaning — `ArxivTool._clean_abstract` (src/src/tools/arxiv_tool.py)

`cleaned = re.sub(r'\s+', ' ', abstract.strip())` followed by
`cleaned = re.sub(r'[^\w\s\.\,\;\:\!\?\-\(\)\[\]]', '', cleaned)`.
`\s` is Python's whitespace class; `\w` is modelled by its ASCII fragment
(alphanumeric or underscore), which is enough for every claim below. -/

def isPySpace (c : Char) : Bool :=
  c == ' ' || c == '\t' || c == '\n' || c == '\r' || c == '\x0b' || c == '\x0c'

def isWordChar (c : Char) : Bool :=
  c.isAlphanum || c == '_'

def allowedChar (c : Char) : Bool :=
  isWordChar c || isPySpace c ||
    ['.', ',', ';', ':', '!', '?', '-', '(', ')', '[', ']'].contains c

/-- Python `str.strip()`: drop leading and trailing whitespace. -/
def pyStripChars (l : List Char) : List Char :=
  ((l.dropWhile isPySpace).reverse.dropWhile isPySpace).reverse

/-- `re.sub(r'\s+', ' ', ·)`: every maximal whitespace run becomes one space. -/
def collapseWs : List Char → List Char
  | [] => []
  | [c] => [if isPySpace c then ' ' else c]
  | c :: d :: rest =>
    if isPySpace c && isPySpace d then collapseWs (d :: rest)
    else (if isPySpace c then ' ' else c) :: collapseWs (d :: rest)

/-- `ArxivTool._clean_abstract`: strip, collapse whitespace runs, then delete
every character outside the allow-list (in that order, as in the source). -/
def clean_abstract (s : String) : String :=
  String.mk ((collapseWs (pyStripChars s.data)).filter allowedChar)

/-- No two adjacent characters of the list are both whitespace. -/
def noDoubleWs (l : List Char) : Prop :=
  List.Chain' (fun a b => ¬(isPySpace a = true ∧ isPySpace b = true)) l

/-! ### Paper record normalizers — `papers_processor` (src/agents/paperFetcher.py)
and `ArxivTool._papers_processor` (src/src/tools/arxiv_tool.py)

A raw search result is a record whose attribute `entry_id` the code reads
unconditionally (the search library always provides it) and whose eight
recognized fields are probed with `hasattr`, so they are modelled as `Option`s.
The produced paper dict is an ordered association list over `PVal` so that a
missing key differs from a key bound to `None`. `datetime.now().isoformat()`
is an external effect, passed in as `now`; the `published` timestamp is
modelled as the ISO string `isoformat()` produces for it. -/

inductive PVal where
  | vnull : PVal
  | vnat : ℕ → PVal
  | vstr : String → PVal
  | vlist : List String → PVal
deriving DecidableEq, Repr

structure RawResult where
  entry_id : String
  published : Option String
  title : Option String
  authors : Option (List String)
  summary : Option String
  primary_category : Option String
  categories : Option (List String)
  link : Option String
  pdf_url : Option String
deriving DecidableEq, Repr

/-- `result.entry_id.split('/')[-1]`. -/
def lastSegment (s : String) : String :=
  ((s.splitOn "/").reverse).headD ""

/-- The `elements` list both processors iterate over. -/
def recognizedFields : List String :=
  ["published", "title", "authors", "summary", "primary_category",
   "categories", "link", "pdf_url"]

/-- `hasattr(result, field)` for the recognized fields. -/
def fieldPresent (r : RawResult) : String → Bool
  | "published" => r.published.isSome
  | "title" => r.title.isSome
  | "authors" => r.authors.isSome
  | "summary" => r.summary.isSome
  | "primary_category" => r.primary_category.isSome
  | "categories" => r.categories.isSome
  | "link" => r.link.isSome
  | "pdf_url" => r.pdf_url.isSome
  | _ => false

/-- The value `ArxivTool._papers_processor` stores for a present field
(`summary` is cleaned; `authors` become plain name strings; `published`
becomes its ISO string), `none` when the field is absent. -/
def rawFieldAx (r : RawResult) : String → Option PVal
  | "published" => r.published.map PVal.vstr
  | "title" => r.title.map PVal.vstr
  | "authors" => r.authors.map PVal.vlist
  | "summary" => r.summary.map (fun v => PVal.vstr (clean_abstract v))
  | "primary_category" => r.primary_category.map PVal.vstr
  | "categories" => r.categories.map PVal.vlist
  | "link" => r.link.map PVal.vstr
  | "pdf_url" => r.pdf_url.map PVal.vstr
  | _ => none

/-- The value `papers_processor` (agents/paperFetcher.py) stores for a present
field: as `rawFieldAx` but the summary is NOT cleaned in that version. -/
def rawFieldPf (r : RawResult) : String → Option PVal
  | "published" => r.published.map PVal.vstr
  | "title" => r.title.map PVal.vstr
  | "authors" => r.authors.map PVal.vlist
  | "summary" => r.summary.map PVal.vstr
  | "primary_category" => r.primary_category.map PVal.vstr
  | "categories" => r.categories.map PVal.vlist
  | "link" => r.link.map PVal.vstr
  | "pdf_url" => r.pdf_url.map PVal.vstr
  | _ => none

/-- `papers_processor` (src/agents/paperFetcher.py) on one raw result: the
`else` branch binds an absent recognized field to `None`. -/
def papers_processor_record (now : String) (i : ℕ) (r : RawResult) :
    List (String × PVal) :=
  [("id", PVal.vnat i), ("arxiv_id", PVal.vstr (lastSegment r.entry_id)),
   ("processed_date", PVal.vstr now)]
    ++ recognizedFields.map (fun f => (f, (rawFieldPf r f).getD PVal.vnull))

/-- `ArxivTool._papers_processor` (src/src/tools/arxiv_tool.py) on one raw
result: an absent recognized field is simply skipped (no key is created). -/
def arxiv_papers_processor_record (now : String) (i : ℕ) (r : RawResult) :
    List (String × PVal) :=
  [("id", PVal.vnat i), ("arxiv_id", PVal.vstr (lastSegment r.entry_id)),
   ("fetched_date", PVal.vstr now)]
    ++ recognizedFields.filterMap (fun f => (rawFieldAx r f).map (fun v => (f, v)))

/-! ### Per-paper analyzer adapter — `GeminiTool` (src/src/tools/gemini_tool.py) -/

/-- The target JSON schema of `_analyze_single_paper`, together with the two
diagnostic keys the fallback dict carries. A field is `none` when the key is
absent from the `analysis` dict (or, for `novelty_score`, not numeric). -/
structure AnalysisData where
  ai_subcategory : Option String
  methodology : Option String
  key_contribution : Option String
  technical_keywords : Option (List String)
  novelty_score : Option ℚ
  practical_applications : Option (List String)
  raw_response : Option String
  parse_error : Option String
deriving DecidableEq, Repr

def emptyAnalysisData : AnalysisData :=
  ⟨none, none, none, none, none, none, none, none⟩

/-- The fallback `analysis` dict built on `json.JSONDecodeError`: only
`raw_response` (the unmodified response text) and `parse_error` are set. -/
def diagnosticData (raw err : String) : AnalysisData :=
  { emptyAnalysisData with raw_response := some raw, parse_error := some err }

/-- One entry of the `analyses` list returned by `GeminiTool._run`. -/
structure AnalysisResult where
  arxiv_id : String
  title : String
  analysis : AnalysisData
  processed_with_url : Bool
deriving DecidableEq, Repr

/-- The fields of a normalized paper that `_analyze_single_paper` reads. -/
structure Paper where
  arxiv_id : Option String
  title : String
  authors : List String
  summary : String
  primary_category : Option String
  ar5iv_url : Option String
deriving DecidableEq, Repr

/-- Outcome of one `generate_content` call: the service raised, or returned
response text. -/
inductive ServiceOutcome where
  | exn : ServiceOutcome
  | text : String → ServiceOutcome
deriving DecidableEq, Repr

/-- The response cleaning before `json.loads`: `strip()`, drop a leading
markdown fence marker, drop a trailing one, `strip()` again. -/
def stripFence (s : String) : String :=
  let t := pyStripChars s.data
  let t := if t.take 7 = "```json".data then t.drop 7 else t
  let t := if "```".data.isSuffixOf t then t.take (t.length - 3) else t
  String.mk (pyStripChars t)

/-- `GeminiTool._analyze_single_paper`: a service exception yields no result
(`None`); returned text is fence-stripped and parsed — on success the parsed
dict becomes the `analysis`, on parse failure the diagnostic dict does.
`parse` models `json.loads` + field extraction of the black-box response. -/
def analyze_single_paper (parse : String → Except String AnalysisData)
    (useUrls : Bool) (p : Paper) : ServiceOutcome → Option AnalysisResult
  | .exn => none
  | .text raw =>
    match parse (stripFence raw) with
    | .ok d =>
      some { arxiv_id := p.arxiv_id.getD "unknown", title := p.title,
             analysis := d,
             processed_with_url := useUrls && p.ar5iv_url.isSome }
    | .error e =>
      some { arxiv_id := p.arxiv_id.getD "unknown", title := p.title,
             analysis := diagnosticData raw e, processed_with_url := false }

/-- The success payload of `GeminiTool._run`. -/
structure BatchOutput where
  analyzed_count : ℕ
  total_papers : ℕ
  analyses : List AnalysisResult
deriving DecidableEq, Repr

/-- `GeminiTool._run`: iterate the papers (each paired with its service
outcome), keep the non-`None` analyses in order, and report the counts. -/
def run_gemini_batch (parse : String → Except String AnalysisData)
    (useUrls : Bool) (pairs : List (Paper × ServiceOutcome)) : BatchOutput :=
  let results := pairs.filterMap (fun q => analyze_single_paper parse useUrls q.1 q.2)
  { analyzed_count := results.length, total_papers := pairs.length,
    analyses := results }

/-! ### Trend aggregator — step 3 of `run_papersynth_pipeline` (src/main.py)

The single pass over `all_analyses` collects four parallel lists; a result
contributes to a list only when the corresponding key is present (and of the
right type), which the `Option` fields model. -/

def extract_categories (rs : List AnalysisResult) : List String :=
  rs.filterMap (fun r => r.analysis.ai_subcategory)

def extract_keywords (rs : List AnalysisResult) : List String :=
  (rs.filterMap (fun r => r.analysis.technical_keywords)).flatten

def extract_methodologies (rs : List AnalysisResult) : List String :=
  rs.filterMap (fun r => r.analysis.methodology)

def extract_scores (rs : List AnalysisResult) : List ℚ :=
  rs.filterMap (fun r => r.analysis.novelty_score)

/-- `sum(novelty_scores) / len(novelty_scores) if novelty_scores else 0`. -/
def avg_novelty_score (rs : List AnalysisResult) : ℚ :=
  if (extract_scores rs).isEmpty then 0
  else (extract_scores rs).sum / ((extract_scores rs).length : ℚ)

/-! ### `Counter` and `most_common` -/

/-- The keys of `Counter(l)` in first-encounter order. -/
def firstSeenKeys : List String → List String
  | [] => []
  | x :: xs => x :: (firstSeenKeys xs).filter (fun y => y != x)

/-- `Counter(l).items()`: each first-seen key with its occurrence count. -/
def counterPairs (l : List String) : List (String × ℕ) :=
  (firstSeenKeys l).map (fun k => (k, l.count k))

/-- Stable insertion into a descending-by-count list: the inserted element
goes before every element of equal count (it is the originally earlier one). -/
def mcInsert (x : String × ℕ) : List (String × ℕ) → List (String × ℕ)
  | [] => [x]
  | y :: ys => if y.2 ≤ x.2 then x :: y :: ys else y :: mcInsert x ys

/-- Stable sort by descending count, as `Counter.most_common` orders items. -/
def mostCommonSort : List (String × ℕ) → List (String × ℕ)
  | [] => []
  | x :: xs => mcInsert x (mostCommonSort xs)

/-- The largest count appearing in a `Counter.items()` list (0 when empty). -/
def maxCount (l : List (String × ℕ)) : ℕ :=
  l.foldr (fun p m => max p.2 m) 0

/-- `dict(Counter(keywords).most_common(n))`: the keyword trend, truncated to
the top `n` (n = 15 in the main report, 10 in the secondary trend view). -/
def top_keywords (kws : List String) (n : ℕ) : List (String × ℕ) :=
  (mostCommonSort (counterPairs kws)).take n

/-- Python `max(items, key=lambda x: x[1])`: the first element with the
maximal value (ties keep the earlier element), `none` on an empty list. -/
def pyMaxByVal : List (String × ℕ) → Option (String × ℕ)
  | [] => none
  | p :: ps => some (ps.foldl (fun acc y => if acc.2 < y.2 then y else acc) p)

/-- `max(trends["ai_categories"].items(), key=lambda x: x[1])[0] if
trends["ai_categories"] else "Unknown"` (src/main.py insights block), with
`trends["ai_categories"] = dict(Counter(categories).most_common())`. -/
def dominant_category (cats : List String) : String :=
  match pyMaxByVal (mostCommonSort (counterPairs cats)) with
  | none => "Unknown"
  | some p => p.1

/-- Modelled from the spec: "the category label with the maximum count ...
ties resolve to whichever key was first encountered during counting" — the
first pair of `Counter(cats).items()` (first-encounter order) whose count is
the maximum. Comparator for `dominant_category`. -/
def firstMaxKey (cats : List String) : Option String :=
  ((counterPairs cats).find? (fun p => p.2 == maxCount (counterPairs cats))).map
    Prod.fst

/-! ### Report assembler — step 4 of `run_papersynth_pipeline` (src/main.py) -/

/-- Round half to even: the rounding CPython's `:.1f` applies to the (exact)
value being formatted. -/
def roundHalfEven (q : ℚ) : ℤ :=
  if q - (⌊q⌋ : ℚ) < 1/2 then ⌊q⌋
  else if 1/2 < q - (⌊q⌋ : ℚ) then ⌊q⌋ + 1
  else if ⌊q⌋ % 2 = 0 then ⌊q⌋ else ⌊q⌋ + 1

/-- `f"{v:.1f}"` for a non-negative value: one decimal place. -/
def fmt1dec (q : ℚ) : String :=
  let n : ℤ := roundHalfEven (q * 10)
  toString (n / 10) ++ "." ++ toString (n % 10)

/-- `f"{(len(all_analyses)/len(papers)*100):.1f}%" if papers else "0%"`. -/
def success_rate (analyzed fetched : ℕ) : String :=
  if fetched = 0 then "0%"
  else fmt1dec ((analyzed : ℚ) / (fetched : ℚ) * 100) ++ "%"

/-- `"High" if avg > 7 else "Medium" if avg > 5 else "Low"`. -/
def innovation_level (m : ℚ) : String :=
  if 7 < m then "High" else if 5 < m then "Medium" else "Low"

/-! ### Concrete sample values used by witnesses -/

def mkScoreResult (q : ℚ) : AnalysisResult :=
  ⟨"id", "t", { emptyAnalysisData with novelty_score := some q }, false⟩

def mkKwResult (ks : List String) : AnalysisResult :=
  ⟨"id", "t", { emptyAnalysisData with technical_keywords := some ks }, false⟩

def samplePaper : Paper :=
  ⟨some "2401.0001v1", "A Paper", ["A. Author"], "An abstract", some "cs.AI", none⟩

def rawAllAbsent : RawResult :=
  ⟨"http://arxiv.org/abs/2401.0001v1", none, none, none, none, none, none, none, none⟩

/-! ## Theorems -/

theorem collapseWs_head_not_space {d : Char} (rest : List Char)
    (hd : isPySpace d = false) :
    (collapseWs (d :: rest)).head? = some d := by
  cases rest with
  | nil => simp [collapseWs, hd]
  | cons e r => simp [collapseWs, hd]

theorem collapseWs_noDoubleWs (l : List Char) : noDoubleWs (collapseWs l) := by
  induction l with
  | nil => exact List.chain'_nil
  | cons c tl ih =>
    cases tl with
    | nil =>
      unfold noDoubleWs collapseWs
      exact List.chain'_singleton _
    | cons d rest =>
      cases hc : isPySpace c <;> cases hd : isPySpace d
      · rw [show collapseWs (c :: d :: rest) = c :: collapseWs (d :: rest) from by
          simp [collapseWs, hc]]
        exact List.chain'_cons'.mpr ⟨fun y _ => by simp [hc], ih⟩
      · rw [show collapseWs (c :: d :: rest) = c :: collapseWs (d :: rest) from by
          simp [collapseWs, hc]]
        exact List.chain'_cons'.mpr ⟨fun y _ => by simp [hc], ih⟩
      · rw [show collapseWs (c :: d :: rest) = ' ' :: collapseWs (d :: rest) from by
          simp [collapseWs, hc, hd]]
        refine List.chain'_cons'.mpr ⟨?_, ih⟩
        intro y hy
        rw [collapseWs_head_not_space rest hd] at hy
        simp only [Option.mem_def, Option.some.injEq] at hy
        subst hy
        simp [hd]
      · rw [show collapseWs (c :: d :: rest) = collapseWs (d :: rest) from by
          simp [collapseWs, hc, hd]]
        exact ih

theorem collapseWs_space_mem {c : Char} :
    ∀ {l : List Char}, c ∈ collapseWs l → isPySpace c = true → c = ' ' := by
  intro l
  induction l with
  | nil => intro h _; simp [collapseWs] at h
  | cons a tl ih =>
    cases tl with
    | nil =>
      intro h hsp
      simp only [collapseWs, List.mem_singleton] at h
      cases ha : isPySpace a
      · rw [ha] at h; simp at h; subst h; rw [ha] at hsp; cases hsp
      · rw [ha] at h; simpa using h
    | cons d rest =>
      intro h hsp
      cases hcond : (isPySpace a && isPySpace d)
      · rw [show collapseWs (a :: d :: rest)
            = (if isPySpace a then ' ' else a) :: collapseWs (d :: rest) from by
          simp [collapseWs, hcond]] at h
        rcases List.mem_cons.mp h with h1 | h2
        · cases ha : isPySpace a
          · rw [ha] at h1; simp at h1; subst h1; rw [ha] at hsp; cases hsp
          · rw [ha] at h1; simpa using h1
        · exact ih h2 hsp
      · rw [show collapseWs (a :: d :: rest) = collapseWs (d :: rest) from by
          simp [collapseWs, hcond]] at h
        exact ih h hsp

/-- Claim C9 (as stated, counterexample): for the input "a & b" the cleaned
abstract is "a  b", which contains two consecutive whitespace characters, so
the output does not have all whitespace runs collapsed to a single space. -/
theorem clean_abstract_consecutive_space_cex :
    clean_abstract "a & b" = "a  b" ∧
    ¬ noDoubleWs (clean_abstract "a & b").data := by
  have h1 : clean_abstract "a & b" = "a  b" := by decide
  refine ⟨h1, ?_⟩
  intro h
  rw [h1] at h
  unfold noDoubleWs at h
  rw [show ("a  b").data = ['a', ' ', ' ', 'b'] from rfl] at h
  obtain ⟨-, h2⟩ := List.chain'_cons.mp h
  obtain ⟨hbad, -⟩ := List.chain'_cons.mp h2
  exact hbad ⟨rfl, rfl⟩

/-- Claim C9 (amended): every character of the cleaned abstract is in the
allow-list; the whitespace collapse is applied to the stripped input BEFORE
disallowed characters are removed, so the intermediate string has no two
consecutive whitespace characters; and every whitespace character of the
output is a single space character (consecutive spaces can remain in the
output where a removed character stood between two spaces). -/
theorem clean_abstract_spec (s : String) :
    (clean_abstract s).data.all allowedChar = true ∧
    noDoubleWs (collapseWs (pyStripChars s.data)) ∧
    (clean_abstract s).data.all (fun c => !(isPySpace c) || (c == ' ')) = true := by
  refine ⟨?_, collapseWs_noDoubleWs _, ?_⟩
  · rw [List.all_eq_true]
    intro c hc
    exact List.of_mem_filter (by simpa [clean_abstract] using hc)
  · rw [List.all_eq_true]
    intro c hc
    have hmem : c ∈ collapseWs (pyStripChars s.data) :=
      List.mem_of_mem_filter (by simpa [clean_abstract] using hc)
    cases hsp : isPySpace c
    · simp
    · rw [collapseWs_space_mem hmem hsp]
      simp

/-- Claim C3: the innovation level is "High" exactly when the mean novelty
score m exceeds 7, "Medium" exactly when 5 < m ≤ 7 and "Low" exactly when
m ≤ 5; the bucket boundaries are exclusive lower bounds (7 → "Medium",
7.01 → "High", 5 → "Low", 5.01 → "Medium"). -/
theorem innovation_level_spec (m : ℚ) :
    (innovation_level m = "High" ↔ 7 < m) ∧
    (innovation_level m = "Medium" ↔ 5 < m ∧ m ≤ 7) ∧
    (innovation_level m = "Low" ↔ m ≤ 5) ∧
    innovation_level 7 = "Medium" ∧ innovation_level (701/100) = "High" ∧
    innovation_level 5 = "Low" ∧ innovation_level (501/100) = "Medium" := by
  have hHM : ("High" : String) ≠ "Medium" := by decide
  have hHL : ("High" : String) ≠ "Low" := by decide
  have hMH : ("Medium" : String) ≠ "High" := by decide
  have hML : ("Medium" : String) ≠ "Low" := by decide
  have hLH : ("Low" : String) ≠ "High" := by decide
  have hLM : ("Low" : String) ≠ "Medium" := by decide
  refine ⟨?_, ?_, ?_, ?_, ?_, ?_, ?_⟩
  · unfold innovation_level
    split_ifs with h1 h2
    · exact ⟨fun _ => h1, fun _ => rfl⟩
    · exact ⟨fun h => absurd h hMH, fun h7 => absurd h7 h1⟩
    · exact ⟨fun h => absurd h hLH, fun h7 => absurd h7 h1⟩
  · unfold innovation_level
    split_ifs with h1 h2
    · exact ⟨fun h => absurd h hHM, fun hh => absurd h1 (not_lt.mpr hh.2)⟩
    · exact ⟨fun _ => ⟨h2, not_lt.mp h1⟩, fun _ => rfl⟩
    · exact ⟨fun h => absurd h hLM, fun hh => absurd hh.1 h2⟩
  · unfold innovation_level
    split_ifs with h1 h2
    · exact ⟨fun h => absurd h hHL, fun h5 => absurd h1 (by linarith)⟩
    · exact ⟨fun h => absurd h hML, fun h5 => absurd h2 (by linarith)⟩
    · exact ⟨fun _ => not_lt.mp h2, fun _ => rfl⟩
  · unfold innovation_level
    rw [if_neg (by norm_num), if_pos (by norm_num)]
  · unfold innovation_level
    rw [if_pos (by norm_num)]
  · unfold innovation_level
    rw [if_neg (by norm_num), if_neg (by norm_num)]
  · unfold innovation_level
    rw [if_neg (by norm_num), if_pos (by norm_num)]

/-- Claim C1: the mean novelty score is the sum of the numeric scores divided
by their count whenever at least one numeric score is present, is 0 when no
numeric score is present (division is total on ℚ, so no division error can
arise), and a result without a numeric score never changes the mean. -/
theorem avg_novelty_score_spec (rs : List AnalysisResult) :
    (extract_scores rs ≠ [] →
      avg_novelty_score rs
        = (extract_scores rs).sum / ((extract_scores rs).length : ℚ)) ∧
    (extract_scores rs = [] → avg_novelty_score rs = 0) ∧
    (∀ (r : AnalysisResult) (pre post : List AnalysisResult),
      r.analysis.novelty_score = none →
      avg_novelty_score (pre ++ r :: post) = avg_novelty_score (pre ++ post)) := by
  refine ⟨?_, ?_, ?_⟩
  · intro h
    rw [avg_novelty_score, if_neg]
    simp [List.isEmpty_iff, h]
  · intro h
    simp [avg_novelty_score, h]
  · intro r pre post h
    have hsc : extract_scores (pre ++ r :: post) = extract_scores (pre ++ post) := by
      simp [extract_scores, List.filterMap_append, List.filterMap_cons, h]
    simp only [avg_novelty_score, hsc]

/-- Witness for C1: two numeric scores 6 and 8 give mean 7. -/
theorem avg_novelty_score_spec_witness :
    avg_novelty_score [mkScoreResult 6, mkScoreResult 8] = 7 := by
  have h := (avg_novelty_score_spec [mkScoreResult 6, mkScoreResult 8]).1 (by decide)
  rw [h, show extract_scores [mkScoreResult 6, mkScoreResult 8] = [6, 8] from rfl]
  norm_num [List.sum_cons]

/-- Claim C2: the success-rate string is the literal "0%" when the fetched
count is 0 (no division is performed), and otherwise is
analyzed / fetched * 100 formatted to one decimal place followed by '%';
2 analyzed of 3 fetched yields "66.7%". -/
theorem success_rate_spec (analyzed fetched : ℕ) :
    (fetched = 0 → success_rate analyzed fetched = "0%") ∧
    (fetched ≠ 0 →
      success_rate analyzed fetched
        = fmt1dec ((analyzed : ℚ) / (fetched : ℚ) * 100) ++ "%") ∧
    success_rate 2 3 = "66.7%" := by
  refine ⟨fun h => by simp [success_rate, h], fun h => by simp [success_rate, h], ?_⟩
  unfold success_rate fmt1dec
  rw [if_neg (by decide)]
  rw [show ((2:ℕ):ℚ) / ((3:ℕ):ℚ) * 100 * 10 = 2000/3 from by norm_num]
  rw [show roundHalfEven ((2000:ℚ)/3) = 667 from ?_]
  · decide
  · unfold roundHalfEven
    rw [show ⌊(2000:ℚ)/3⌋ = 666 from by
      rw [Int.floor_eq_iff]
      constructor <;> norm_num]
    rw [if_neg (by norm_num), if_pos (by norm_num)]
    norm_num

/-- Witness for C2: the zero-fetched case evaluates to the literal "0%". -/
theorem success_rate_spec_witness : success_rate 0 0 = "0%" :=
  (success_rate_spec 0 0).1 rfl

theorem analyze_single_fields {parse : String → Except String AnalysisData}
    {useUrls : Bool} {p : Paper} {o : ServiceOutcome} {r : AnalysisResult}
    (h : analyze_single_paper parse useUrls p o = some r) :
    r.arxiv_id = p.arxiv_id.getD "unknown" ∧ r.title = p.title := by
  cases o with
  | exn => simp [analyze_single_paper] at h
  | text raw =>
    cases hp : parse (stripFence raw) with
    | ok d =>
      simp only [analyze_single_paper, hp, Option.some.injEq] at h
      rw [← h]
      exact ⟨rfl, rfl⟩
    | error e =>
      simp only [analyze_single_paper, hp, Option.some.injEq] at h
      rw [← h]
      exact ⟨rfl, rfl⟩

/-- Claim C7: a service exception for one paper yields no result for it; the
batch output over the remaining papers is unchanged (the loop continues), and
the paper counts toward the batch's total (fetched) count but not toward the
analyzed count. -/
theorem service_exception_skips (parse : String → Except String AnalysisData)
    (useUrls : Bool) (pre post : List (Paper × ServiceOutcome)) (p : Paper) :
    (run_gemini_batch parse useUrls (pre ++ (p, ServiceOutcome.exn) :: post)).analyses
        = (run_gemini_batch parse useUrls (pre ++ post)).analyses ∧
    (run_gemini_batch parse useUrls (pre ++ (p, ServiceOutcome.exn) :: post)).analyzed_count
        = (run_gemini_batch parse useUrls (pre ++ post)).analyzed_count ∧
    (run_gemini_batch parse useUrls (pre ++ (p, ServiceOutcome.exn) :: post)).total_papers
        = (run_gemini_batch parse useUrls (pre ++ post)).total_papers + 1 := by
  have hnone : analyze_single_paper parse useUrls p ServiceOutcome.exn = none := rfl
  refine ⟨?_, ?_, ?_⟩
  · simp [run_gemini_batch, List.filterMap_append, List.filterMap_cons, hnone]
  · simp [run_gemini_batch, List.filterMap_append, List.filterMap_cons, hnone]
  · simp only [run_gemini_batch, List.length_append, List.length_cons]
    omega

/-- Claim C10: the success payload's analyzed_count equals the length of its
analyses list, which is at most the number of input papers, and the analyses
appear in input order, each carrying the arxiv_id (defaulted to "unknown"
when absent) and title of its input paper. -/
theorem gemini_batch_invariants (parse : String → Except String AnalysisData)
    (useUrls : Bool) (pairs : List (Paper × ServiceOutcome)) :
    (run_gemini_batch parse useUrls pairs).analyzed_count
        = (run_gemini_batch parse useUrls pairs).analyses.length ∧
    (run_gemini_batch parse useUrls pairs).analyses.length ≤ pairs.length ∧
    ((run_gemini_batch parse useUrls pairs).analyses.map
        (fun r => (r.arxiv_id, r.title))).Sublist
      (pairs.map (fun q => (q.1.arxiv_id.getD "unknown", q.1.title))) := by
  refine ⟨rfl, ?_, ?_⟩
  · simp only [run_gemini_batch]
    exact List.length_filterMap_le _ _
  · simp only [run_gemini_batch]
    induction pairs with
    | nil => simp
    | cons q qs ih =>
      cases hq : analyze_single_paper parse useUrls q.1 q.2 with
      | none =>
        simp only [List.filterMap_cons, hq, List.map_cons]
        exact ih.cons _
      | some r =>
        obtain ⟨hid, hti⟩ := analyze_single_fields hq
        simp only [List.filterMap_cons, hq, List.map_cons]
        rw [hid, hti]
        exact ih.cons₂ _

/-- Claim C6: a response the parser rejects yields (without raising) a result
whose analysis is exactly the diagnostic dict — raw response text and parse
error populated, every structured field absent — and such a result
contributes to none of the aggregator's category, keyword, methodology or
novelty-score tallies. -/
theorem parse_failure_diagnostic (parse : String → Except String AnalysisData)
    (useUrls : Bool) (p : Paper) (raw e : String)
    (h : parse (stripFence raw) = Except.error e) :
    ∃ r, analyze_single_paper parse useUrls p (ServiceOutcome.text raw) = some r ∧
      r.analysis = diagnosticData raw e ∧
      r.analysis.raw_response = some raw ∧
      r.analysis.parse_error = some e ∧
      r.analysis.ai_subcategory = none ∧
      r.analysis.methodology = none ∧
      r.analysis.key_contribution = none ∧
      r.analysis.technical_keywords = none ∧
      r.analysis.novelty_score = none ∧
      r.analysis.practical_applications = none ∧
      (∀ pre post : List AnalysisResult,
        extract_categories (pre ++ r :: post) = extract_categories (pre ++ post) ∧
        extract_keywords (pre ++ r :: post) = extract_keywords (pre ++ post) ∧
        extract_methodologies (pre ++ r :: post)
            = extract_methodologies (pre ++ post) ∧
        extract_scores (pre ++ r :: post) = extract_scores (pre ++ post)) := by
  refine ⟨{ arxiv_id := p.arxiv_id.getD "unknown", title := p.title,
            analysis := diagnosticData raw e, processed_with_url := false },
    ?_, rfl, rfl, rfl, rfl, rfl, rfl, rfl, rfl, rfl, ?_⟩
  · simp only [analyze_single_paper, h]
  · intro pre post
    refine ⟨?_, ?_, ?_, ?_⟩ <;>
      simp [extract_categories, extract_keywords, extract_methodologies,
        extract_scores, List.filterMap_append, List.filterMap_cons,
        diagnosticData, emptyAnalysisData]

/-- Witness for C6: a parser that rejects everything turns the response
"not json" into the diagnostic result, which the tallies all ignore. -/
theorem parse_failure_diagnostic_witness :
    ∃ r, analyze_single_paper (fun _ => Except.error "bad") false samplePaper
        (ServiceOutcome.text "not json") = some r ∧
      r.analysis = diagnosticData "not json" "bad" ∧
      r.analysis.raw_response = some "not json" ∧
      r.analysis.parse_error = some "bad" ∧
      r.analysis.ai_subcategory = none ∧
      r.analysis.methodology = none ∧
      r.analysis.key_contribution = none ∧
      r.analysis.technical_keywords = none ∧
      r.analysis.novelty_score = none ∧
      r.analysis.practical_applications = none ∧
      (∀ pre post : List AnalysisResult,
        extract_categories (pre ++ r :: post) = extract_categories (pre ++ post) ∧
        extract_keywords (pre ++ r :: post) = extract_keywords (pre ++ post) ∧
        extract_methodologies (pre ++ r :: post)
            = extract_methodologies (pre ++ post) ∧
        extract_scores (pre ++ r :: post) = extract_scores (pre ++ post)) :=
  parse_failure_diagnostic (fun _ => Except.error "bad") false samplePaper
    "not json" "bad" rfl

theorem mem_mcInsert {z x : String × ℕ} :
    ∀ {l : List (String × ℕ)}, z ∈ mcInsert x l ↔ z = x ∨ z ∈ l := by
  intro l
  induction l with
  | nil => simp [mcInsert]
  | cons y ys ih =>
    unfold mcInsert
    split_ifs with hc
    · simp
    · simp only [List.mem_cons, ih]
      tauto

theorem mem_mostCommonSort {z : String × ℕ} :
    ∀ {l : List (String × ℕ)}, z ∈ mostCommonSort l ↔ z ∈ l := by
  intro l
  induction l with
  | nil => simp [mostCommonSort]
  | cons x xs ih =>
    simp only [mostCommonSort, mem_mcInsert, ih, List.mem_cons]

theorem pairwise_imp_mem {α : Type} {R Q : α → α → Prop} :
    ∀ {l : List α}, (∀ a b, a ∈ l → b ∈ l → R a b → Q a b) →
      l.Pairwise R → l.Pairwise Q := by
  intro l
  induction l with
  | nil => intro _ _; exact List.Pairwise.nil
  | cons x xs ih =>
    intro hm hp
    obtain ⟨h1, h2⟩ := List.pairwise_cons.mp hp
    refine List.pairwise_cons.mpr ⟨?_, ?_⟩
    · intro b hb
      exact hm x b (List.mem_cons_self _ _) (List.mem_cons_of_mem _ hb) (h1 b hb)
    · exact ih (fun a b ha hb => hm a b (List.mem_cons_of_mem _ ha)
        (List.mem_cons_of_mem _ hb)) h2

theorem mcInsert_pairwise (S : (String × ℕ) → (String × ℕ) → Prop)
    (x : String × ℕ) :
    ∀ {l : List (String × ℕ)},
      l.Pairwise (fun a b => b.2 < a.2 ∨ (b.2 = a.2 ∧ S a b)) →
      (∀ z ∈ l, S x z) →
      (mcInsert x l).Pairwise (fun a b => b.2 < a.2 ∨ (b.2 = a.2 ∧ S a b)) := by
  intro l
  induction l with
  | nil => intro _ _; simp [mcInsert]
  | cons y ys ih =>
    intro hl hx
    obtain ⟨hy, hys⟩ := List.pairwise_cons.mp hl
    unfold mcInsert
    split_ifs with hc
    · refine List.pairwise_cons.mpr ⟨?_, hl⟩
      intro z hz
      rcases List.mem_cons.mp hz with rfl | hz'
      · rcases lt_or_eq_of_le hc with h | h
        · exact Or.inl h
        · exact Or.inr ⟨h, hx z (List.mem_cons_self _ _)⟩
      · have hzy := hy z hz'
        have hz2 : z.2 ≤ y.2 := by
          rcases hzy with h | h
          · exact le_of_lt h
          · exact le_of_eq h.1
        rcases lt_or_eq_of_le (le_trans hz2 hc) with h | h
        · exact Or.inl h
        · exact Or.inr ⟨h, hx z (List.mem_cons_of_mem _ hz')⟩
    · refine List.pairwise_cons.mpr ⟨?_, ?_⟩
      · intro z hz
        rcases mem_mcInsert.mp hz with rfl | hz'
        · exact Or.inl (not_le.mp hc)
        · exact hy z hz'
      · exact ih hys (fun z hz => hx z (List.mem_cons_of_mem _ hz))

theorem mostCommonSort_pairwise (S : (String × ℕ) → (String × ℕ) → Prop) :
    ∀ {l : List (String × ℕ)}, l.Pairwise S →
      (mostCommonSort l).Pairwise (fun a b => b.2 < a.2 ∨ (b.2 = a.2 ∧ S a b)) := by
  intro l
  induction l with
  | nil => intro _; simp [mostCommonSort]
  | cons x xs ih =>
    intro hp
    obtain ⟨h1, h2⟩ := List.pairwise_cons.mp hp
    exact mcInsert_pairwise S x (ih h2)
      (fun z hz => h1 z (mem_mostCommonSort.mp hz))

theorem mostCommonSort_sorted (l : List (String × ℕ)) :
    (mostCommonSort l).Pairwise (fun a b => b.2 ≤ a.2) := by
  have htriv : l.Pairwise (fun _ _ => True) := by
    induction l with
    | nil => exact List.Pairwise.nil
    | cons a t ih => exact List.Pairwise.cons (fun _ _ => trivial) ih
  exact (mostCommonSort_pairwise (fun _ _ => True) htriv).imp
    (fun h => by
      rcases h with h | h
      · exact le_of_lt h
      · exact le_of_eq h.1)

theorem maxCount_ge {p : String × ℕ} :
    ∀ {l : List (String × ℕ)}, p ∈ l → p.2 ≤ maxCount l := by
  intro l
  induction l with
  | nil => intro h; cases h
  | cons x t ih =>
    intro h
    rcases List.mem_cons.mp h with rfl | h'
    · exact le_max_left _ _
    · exact le_trans (ih h') (le_max_right _ _)

theorem mem_firstSeenKeys {a : String} :
    ∀ {l : List String}, a ∈ firstSeenKeys l ↔ a ∈ l := by
  intro l
  induction l with
  | nil => simp [firstSeenKeys]
  | cons x xs ih =>
    simp only [firstSeenKeys, List.mem_cons, List.mem_filter, ih, bne_iff_ne]
    constructor
    · rintro (rfl | ⟨h, -⟩)
      · exact Or.inl rfl
      · exact Or.inr h
    · rintro (rfl | h)
      · exact Or.inl rfl
      · by_cases hx : a = x
        · exact Or.inl hx
        · exact Or.inr ⟨h, hx⟩

theorem firstSeenKeys_pairwise_indexOf (l : List String) :
    (firstSeenKeys l).Pairwise (fun a b => l.indexOf a < l.indexOf b) := by
  induction l with
  | nil => exact List.Pairwise.nil
  | cons x xs ih =>
    refine List.pairwise_cons.mpr ⟨?_, ?_⟩
    · intro b hb
      obtain ⟨-, hbx⟩ := List.mem_filter.mp hb
      have hne : b ≠ x := bne_iff_ne.mp hbx
      rw [List.indexOf_cons_self, List.indexOf_cons_ne _ (fun h => hne h.symm)]
      exact Nat.succ_pos _
    · refine pairwise_imp_mem ?_ (ih.filter (fun y => y != x))
      intro a b ha hb hr
      have hax : a ≠ x := bne_iff_ne.mp (List.mem_filter.mp ha).2
      have hbx : b ≠ x := bne_iff_ne.mp (List.mem_filter.mp hb).2
      rw [List.indexOf_cons_ne _ (fun h => hax h.symm),
        List.indexOf_cons_ne _ (fun h => hbx h.symm)]
      exact Nat.succ_lt_succ hr

theorem pyMax_foldl_keep (a : String × ℕ) :
    ∀ (t : List (String × ℕ)), (∀ y ∈ t, y.2 ≤ a.2) →
      t.foldl (fun acc y => if acc.2 < y.2 then y else acc) a = a := by
  intro t
  induction t generalizing a with
  | nil => intro _; rfl
  | cons y ys ih =>
    intro h
    have hy : y.2 ≤ a.2 := h y (List.mem_cons_self _ _)
    rw [List.foldl_cons, if_neg (not_lt.mpr hy)]
    exact ih a (fun z hz => h z (List.mem_cons_of_mem _ hz))

theorem pyMaxByVal_sorted {p : String × ℕ} {ps : List (String × ℕ)}
    (h : (p :: ps).Pairwise (fun a b => b.2 ≤ a.2)) :
    pyMaxByVal (p :: ps) = some p := by
  obtain ⟨h1, -⟩ := List.pairwise_cons.mp h
  rw [show pyMaxByVal (p :: ps)
      = some (ps.foldl (fun acc y => if acc.2 < y.2 then y else acc) p) from rfl,
    pyMax_foldl_keep p ps h1]

theorem mostCommonSort_head_find :
    ∀ {l : List (String × ℕ)}, l ≠ [] →
      ∃ h, (mostCommonSort l).head? = some h ∧ h.2 = maxCount l ∧
        l.find? (fun p => p.2 == maxCount l) = some h := by
  intro l
  induction l with
  | nil => intro hne; exact absurd rfl hne
  | cons x xs ih =>
    intro _
    cases xs with
    | nil =>
      refine ⟨x, ?_, ?_, ?_⟩
      · rfl
      · simp [maxCount]
      · simp [maxCount, List.find?]
    | cons y ys =>
      obtain ⟨h₀, hhead, hval, hfind⟩ := ih (List.cons_ne_nil y ys)
      cases hs : mostCommonSort (y :: ys) with
      | nil => rw [hs] at hhead; cases hhead
      | cons a t =>
        rw [hs] at hhead
        simp only [List.head?_cons, Option.some.injEq] at hhead
        subst hhead
        have hmax : maxCount (x :: y :: ys) = max x.2 (maxCount (y :: ys)) := rfl
        by_cases hc : a.2 ≤ x.2
        · have hmx : maxCount (x :: y :: ys) = x.2 := by
            rw [hmax, ← hval]
            exact max_eq_left hc
          refine ⟨x, ?_, hmx.symm, ?_⟩
          · rw [show mostCommonSort (x :: y :: ys)
                = mcInsert x (mostCommonSort (y :: ys)) from rfl, hs]
            unfold mcInsert
            rw [if_pos hc]
            rfl
          · rw [List.find?_cons_of_pos]
            simp [hmx]
        · have hlt : x.2 < a.2 := not_le.mp hc
          have hmx : maxCount (x :: y :: ys) = maxCount (y :: ys) := by
            rw [hmax, ← hval]
            exact max_eq_right (le_of_lt hlt)
          refine ⟨a, ?_, ?_, ?_⟩
          · rw [show mostCommonSort (x :: y :: ys)
                = mcInsert x (mostCommonSort (y :: ys)) from rfl, hs]
            unfold mcInsert
            rw [if_neg hc]
            rfl
          · rw [hmx, hval]
          · rw [List.find?_cons_of_neg, hmx]
            · exact hfind
            · simp only [hmx, hval, beq_iff_eq]
              exact Nat.ne_of_lt (hval ▸ hlt)

/-- Claim C4: the report's dominant category is "Unknown" when the category
mapping is empty, and otherwise is the first-encountered category label whose
count is maximal — a member of the input whose count no other label
exceeds. -/
theorem dominant_category_spec (cats : List String) :
    (cats = [] → dominant_category cats = "Unknown") ∧
    (cats ≠ [] →
      firstMaxKey cats = some (dominant_category cats) ∧
      dominant_category cats ∈ cats ∧
      ∀ c ∈ cats, cats.count c ≤ cats.count (dominant_category cats)) := by
  constructor
  · intro h
    subst h
    rfl
  · intro hne
    have hcp : counterPairs cats ≠ [] := by
      cases cats with
      | nil => exact absurd rfl hne
      | cons c cs => simp [counterPairs, firstSeenKeys]
    obtain ⟨h, hhead, hval, hfind⟩ := mostCommonSort_head_find hcp
    cases hs : mostCommonSort (counterPairs cats) with
    | nil => rw [hs] at hhead; cases hhead
    | cons a t =>
      rw [hs] at hhead
      simp only [List.head?_cons, Option.some.injEq] at hhead
      subst hhead
      have hsorted := mostCommonSort_sorted (counterPairs cats)
      rw [hs] at hsorted
      have hpy : pyMaxByVal (a :: t) = some a := pyMaxByVal_sorted hsorted
      have hdom : dominant_category cats = a.1 := by
        unfold dominant_category
        rw [hs, hpy]
      have hmem : a ∈ counterPairs cats := by
        have hm : a ∈ mostCommonSort (counterPairs cats) := by
          rw [hs]; exact List.mem_cons_self _ _
        exact mem_mostCommonSort.mp hm
      obtain ⟨k, hk, hkeq⟩ := List.mem_map.mp hmem
      refine ⟨?_, ?_, ?_⟩
      · unfold firstMaxKey
        rw [hfind, hdom]
        rfl
      · rw [hdom, ← hkeq]
        exact mem_firstSeenKeys.mp hk
      · intro c hc
        have hcmem : (c, cats.count c) ∈ counterPairs cats :=
          List.mem_map.mpr ⟨c, mem_firstSeenKeys.mpr hc, rfl⟩
        have hle : cats.count c ≤ maxCount (counterPairs cats) :=
          maxCount_ge hcmem
        have hcount : cats.count a.1 = a.2 := by
          rw [← hkeq]
        rw [hdom, hcount, hval]
        exact hle

/-- Witness for C4: on ["b","a","b"] the nonempty case of the theorem applies
and the dominant category evaluates to "b", the key with maximal count. -/
theorem dominant_category_spec_witness :
    firstMaxKey ["b", "a", "b"] = some (dominant_category ["b", "a", "b"]) ∧
    dominant_category ["b", "a", "b"] = "b" := by
  refine ⟨((dominant_category_spec ["b", "a", "b"]).2 (by decide)).1, ?_⟩
  decide

/-- Claim C5: the keyword trend counts the flattened per-paper keyword lists
and keeps at most n entries; every kept entry is a keyword with its exact
occurrence count; entries are ordered by strictly descending count except
that equal counts keep first-occurrence order; every omitted keyword's count
is at most every kept count; and on ["a","a","b","c","c","c"] the top 2 are
[("c",3),("a",2)]. -/
theorem keyword_trend_spec (kws : List String) (n : ℕ) :
    (top_keywords kws n).length ≤ n ∧
    (∀ p ∈ top_keywords kws n, p.1 ∈ kws ∧ p.2 = kws.count p.1) ∧
    (top_keywords kws n).Pairwise
      (fun a b => b.2 < a.2 ∨ (b.2 = a.2 ∧ kws.indexOf a.1 < kws.indexOf b.1)) ∧
    (∀ k ∈ firstSeenKeys kws, (∀ p ∈ top_keywords kws n, p.1 ≠ k) →
      ∀ p ∈ top_keywords kws n, kws.count k ≤ p.2) ∧
    top_keywords
        (extract_keywords [mkKwResult ["a", "a", "b"], mkKwResult ["c", "c", "c"]]) 2
      = [("c", 3), ("a", 2)] := by
  refine ⟨?_, ?_, ?_, ?_, by decide⟩
  · rw [top_keywords, List.length_take]
    exact min_le_left _ _
  · intro p hp
    have hp' : p ∈ mostCommonSort (counterPairs kws) :=
      List.mem_of_mem_take hp
    obtain ⟨k, hk, hkeq⟩ := List.mem_map.mp (mem_mostCommonSort.mp hp')
    rw [← hkeq]
    exact ⟨mem_firstSeenKeys.mp hk, rfl⟩
  · have hS : (counterPairs kws).Pairwise
        (fun a b => kws.indexOf a.1 < kws.indexOf b.1) := by
      unfold counterPairs
      rw [List.pairwise_map]
      exact firstSeenKeys_pairwise_indexOf kws
    exact List.Pairwise.sublist (List.take_sublist _ _)
      (mostCommonSort_pairwise _ hS)
  · intro k hk hnot p hp
    have hkmem : (k, kws.count k) ∈ mostCommonSort (counterPairs kws) :=
      mem_mostCommonSort.mpr (List.mem_map.mpr ⟨k, hk, rfl⟩)
    rw [← List.take_append_drop n (mostCommonSort (counterPairs kws))] at hkmem
    rcases List.mem_append.mp hkmem with hin | hdrop
    · exact absurd rfl (hnot (k, kws.count k) hin)
    · have hso := mostCommonSort_sorted (counterPairs kws)
      rw [← List.take_append_drop n (mostCommonSort (counterPairs kws))] at hso
      obtain ⟨-, -, hcross⟩ := List.pairwise_append.mp hso
      exact hcross p hp _ hdrop

/-- Witness for C5: the concrete truncation example, by the theorem. -/
theorem keyword_trend_spec_witness :
    top_keywords
        (extract_keywords [mkKwResult ["a", "a", "b"], mkKwResult ["c", "c", "c"]]) 2
      = [("c", 3), ("a", 2)] :=
  (keyword_trend_spec [] 0).2.2.2.2

theorem lookup_cons_ne {f k : String} {v : PVal} {l : List (String × PVal)}
    (h : (f == k) = false) :
    List.lookup f ((k, v) :: l) = List.lookup f l := by
  simp [List.lookup, h]

theorem lookup_map_pairs (val : String → PVal) (f : String) :
    ∀ (names : List String), f ∈ names →
      List.lookup f (names.map (fun g => (g, val g))) = some (val f) := by
  intro names
  induction names with
  | nil => intro h; cases h
  | cons g gs ih =>
    intro hf
    by_cases hfg : f = g
    · subst hfg
      simp [List.lookup]
    · have hne : (f == g) = false := beq_eq_false_iff_ne.mpr hfg
      rcases List.mem_cons.mp hf with rfl | h
      · exact absurd rfl hfg
      · rw [List.map_cons, lookup_cons_ne hne]
        exact ih h

theorem lookup_filterMap_pairs (val : String → Option PVal) (f : String)
    (habs : val f = none) :
    ∀ (names : List String),
      List.lookup f (names.filterMap (fun g => (val g).map (fun v => (g, v))))
        = none := by
  intro names
  induction names with
  | nil => rfl
  | cons g gs ih =>
    cases hvg : val g with
    | none =>
      simp only [List.filterMap_cons, hvg, Option.map_none']
      exact ih
    | some v =>
      by_cases hfg : f = g
      · subst hfg
        rw [habs] at hvg
        cases hvg
      · have hne : (f == g) = false := beq_eq_false_iff_ne.mpr hfg
        simp only [List.filterMap_cons, hvg, Option.map_some']
        rw [lookup_cons_ne hne]
        exact ih

theorem lookup_pf_field (now : String) (i : ℕ) (r : RawResult) (f : String)
    (hf : f ∈ recognizedFields) :
    (papers_processor_record now i r).lookup f
      = some ((rawFieldPf r f).getD PVal.vnull) := by
  have hall : ∀ g ∈ recognizedFields,
      (g == "id") = false ∧ (g == "arxiv_id") = false ∧
      (g == "processed_date") = false := by decide
  obtain ⟨h1, h2, h3⟩ := hall f hf
  unfold papers_processor_record
  simp only [List.cons_append, List.nil_append]
  rw [lookup_cons_ne h1, lookup_cons_ne h2, lookup_cons_ne h3]
  exact lookup_map_pairs (fun g => (rawFieldPf r g).getD PVal.vnull) f
    recognizedFields hf

theorem lookup_ax_absent (now : String) (i : ℕ) (r : RawResult) (f : String)
    (hf : f ∈ recognizedFields) (habs : rawFieldAx r f = none) :
    (arxiv_papers_processor_record now i r).lookup f = none := by
  have hall : ∀ g ∈ recognizedFields,
      (g == "id") = false ∧ (g == "arxiv_id") = false ∧
      (g == "fetched_date") = false := by decide
  obtain ⟨h1, h2, h3⟩ := hall f hf
  unfold arxiv_papers_processor_record
  simp only [List.cons_append, List.nil_append]
  rw [lookup_cons_ne h1, lookup_cons_ne h2, lookup_cons_ne h3]
  exact lookup_filterMap_pairs (rawFieldAx r) f habs recognizedFields

/-- Claim C8 (as stated, counterexample): the pipeline's normalizer
(`ArxivTool._papers_processor`) applied to a raw result with every recognized
field absent produces a record in which "title" is not bound at all — in
particular it is not set to null. -/
theorem arxiv_absent_field_not_null_cex :
    (arxiv_papers_processor_record "now" 1 rawAllAbsent).lookup "title" = none ∧
    ¬ ((arxiv_papers_processor_record "now" 1 rawAllAbsent).lookup "title"
        = some PVal.vnull) := by
  constructor
  · decide
  · decide

/-- Claim C8 (amended): neither normalizer raises on a raw result with absent
recognized fields, but they differ — `papers_processor`
(agents/paperFetcher.py) binds each absent recognized field to null, while
`ArxivTool._papers_processor` (src/tools/arxiv_tool.py) omits the key
entirely. -/
theorem papers_processor_absent_fields (now : String) (i : ℕ) (r : RawResult)
    (f : String) (hf : f ∈ recognizedFields) (habs : fieldPresent r f = false) :
    (papers_processor_record now i r).lookup f = some PVal.vnull ∧
    (arxiv_papers_processor_record now i r).lookup f = none := by
  have h8 : f = "published" ∨ f = "title" ∨ f = "authors" ∨ f = "summary" ∨
      f = "primary_category" ∨ f = "categories" ∨ f = "link" ∨
      f = "pdf_url" := by
    simpa [recognizedFields] using hf
  have hax : rawFieldAx r f = none ∧ rawFieldPf r f = none := by
    rcases h8 with rfl | rfl | rfl | rfl | rfl | rfl | rfl | rfl
    · cases ho : r.published <;> simp_all [rawFieldAx, rawFieldPf, fieldPresent]
    · cases ho : r.title <;> simp_all [rawFieldAx, rawFieldPf, fieldPresent]
    · cases ho : r.authors <;> simp_all [rawFieldAx, rawFieldPf, fieldPresent]
    · cases ho : r.summary <;> simp_all [rawFieldAx, rawFieldPf, fieldPresent]
    · cases ho : r.primary_category <;>
        simp_all [rawFieldAx, rawFieldPf, fieldPresent]
    · cases ho : r.categories <;> simp_all [rawFieldAx, rawFieldPf, fieldPresent]
    · cases ho : r.link <;> simp_all [rawFieldAx, rawFieldPf, fieldPresent]
    · cases ho : r.pdf_url <;> simp_all [rawFieldAx, rawFieldPf, fieldPresent]
  obtain ⟨hax1, hpf1⟩ := hax
  constructor
  · rw [lookup_pf_field now i r f hf, hpf1]
    rfl
  · exact lookup_ax_absent now i r f hf hax1

/-- Witness for C8 (amended): on a raw result with every recognized field
absent, the paperFetcher normalizer binds "title" to null and the arXiv-tool
normalizer leaves "title" unbound. -/
theorem papers_processor_absent_fields_witness :
    (papers_processor_record "now" 1 rawAllAbsent).lookup "title"
        = some PVal.vnull ∧
    (arxiv_papers_processor_record "now" 1 rawAllAbsent).lookup "title"
        = none :=
  papers_processor_absent_fields "now" 1 rawAllAbsent "title" (by decide) rfl
